import Mathlib

/-!
Verification of the tell/ask reminder module (`sopel/modules/tell.py`).

Strings are embedded as lists of characters (`Str`), Python string
primitives (`strip`, `split` with a maxsplit bound, `lower`, `rstrip` with a
character set, ...) are translated as executable Lean functions, and the
reminder index (a Python dict from recipient key to list of reminders,
insertion-ordered) is embedded as an association list.
-/

set_option maxRecDepth 4000

namespace Tell

/-- A Python string, embedded as a list of characters. -/
abbrev Str := List Char

/-- Convert a Lean string literal into the `Str` embedding. -/
def chars (s : String) : Str := s.data

/-- Characters stripped by Python's no-argument `str.strip` (ASCII whitespace). -/
def pyIsSpace (c : Char) : Bool :=
  c = ' ' || c = '\t' || c = '\n' || c = '\r' || c = Char.ofNat 11 || c = Char.ofNat 12

/-- Python `s.lstrip()`: drop leading whitespace. -/
def pyLStrip (s : Str) : Str := s.dropWhile pyIsSpace

/-- Python `s.rstrip()`: drop trailing whitespace. -/
def pyRStrip (s : Str) : Str := (s.reverse.dropWhile pyIsSpace).reverse

/-- Python `s.strip()`: drop whitespace at both ends. -/
def pyStrip (s : Str) : Str := pyRStrip (pyLStrip s)

/-- Python `s.lstrip(cs)`: drop leading characters that belong to the set `cs`. -/
def pyLStripSet (cs : Str) (s : Str) : Str := s.dropWhile (fun c => cs.contains c)

/-- Python `s.rstrip(cs)`: drop trailing characters that belong to the set `cs`. -/
def pyRStripSet (cs : Str) (s : Str) : Str :=
  (s.reverse.dropWhile (fun c => cs.contains c)).reverse

/-- Python `s.lower()`, restricted to the ASCII case mapping. -/
def pyLower (s : Str) : Str := s.map Char.toLower

/-- Python `s.endswith(c)` for a single-character suffix. -/
def pyEndsWith (s : Str) (c : Char) : Bool := decide (s.getLast? = some c)

/-- Python `s.split(c)` (split on every occurrence of the separator; `"".split(c)`
is `[""]`, and a trailing separator yields a trailing empty piece). -/
def pySplit (c : Char) : Str → List Str
  | [] => [[]]
  | x :: xs =>
    let r := pySplit c xs
    if x = c then [] :: r
    else (x :: r.headD []) :: r.tail

/-- Python `s.split(c, n)`: split on at most `n` occurrences of the separator,
leaving the remainder (which may still contain the separator) as the last piece. -/
def pySplitMax (c : Char) : Nat → Str → List Str
  | _, [] => [[]]
  | 0, x :: xs => [x :: xs]
  | n + 1, x :: xs =>
    if x = c then [] :: pySplitMax c n xs
    else
      let r := pySplitMax c (n + 1) xs
      (x :: r.headD []) :: r.tail

/-- Join a list of pieces with a single-character separator (left inverse of
`pySplitMax`, used to reason about the split). -/
def joinSep (c : Char) : List Str → Str
  | [] => []
  | [l] => l
  | l :: ls => l ++ c :: joinSep c ls

/-- A pending reminder: sender nickname, verb (`tell` or `ask`), formatted
timestamp, and message body, exactly the 4-tuple stored per recipient key. -/
structure Reminder where
  teller : Str
  verb : Str
  timenow : Str
  msg : Str
deriving DecidableEq

/-- The in-memory reminder index: recipient key mapped to the ordered list of
pending reminders, with dict insertion order embedded as list order. -/
abbrev ReminderIndex := List (Str × List Reminder)

/-- `result[tellee].append(reminder)` on a `defaultdict(list)`: append to the
entry of the key, creating the key at the end of the dict if it is absent. -/
def appendReminder : ReminderIndex → Str → Reminder → ReminderIndex
  | [], k, r => [(k, [r])]
  | (k', rs) :: rest, k, r =>
    if k' = k then (k', rs ++ [r]) :: rest
    else (k', rs) :: appendReminder rest k r

/-- Plain dict lookup: first (and, for genuine dicts, only) entry of the key. -/
def lookupKey : ReminderIndex → Str → Option (List Reminder)
  | [], _ => none
  | (k', rs) :: rest, k => if k' = k then some rs else lookupKey rest k

/-- The body of the `load_reminders` loop for one raw line: strip it, skip it
if empty, split it on tab with maxsplit 4, skip it on a wrong field count
(the `ValueError` branch), otherwise append the reminder under its key. -/
def processLine (result : ReminderIndex) (rawLine : Str) : ReminderIndex :=
  let line := pyStrip rawLine
  if line = [] then result
  else
    match pySplitMax '\t' 4 line with
    | [tellee, teller, verb, timenow, msg] =>
      appendReminder result tellee ⟨teller, verb, timenow, msg⟩
    | _ => result

/-- `load_reminders`: read the file content line by line and accumulate the
reminder index. -/
def load_reminders (content : Str) : ReminderIndex :=
  (pySplit '\n' content).foldl processLine []

/-- One serialized line of `dump_reminders`: `'\t'.join((tellee,) + reminder)`. -/
def dumpLine (tellee : Str) (r : Reminder) : Str :=
  tellee ++ ('\t' :: (r.teller ++ ('\t' :: (r.verb ++
    ('\t' :: (r.timenow ++ ('\t' :: r.msg)))))))

/-- `dump_reminders`: write one line per (key, reminder) pair, iterating keys in
dict order and each key's reminders in list order, each line terminated by a
newline; returns the full file content written. -/
def dump_reminders (data : ReminderIndex) : Str :=
  (((data.map (fun p => p.2.map (dumpLine p.1))).flatten).map (fun l => l ++ ['\n'])).flatten

/-- MAXIMUM: the number of reminder lines said publicly before switching to
private delivery. -/
def MAXIMUM : Nat := 4

/-- The key-matching test of the delivery matcher, one loop iteration's
condition: a key with no trailing `*`, or with a trailing `:`, is compared
case-insensitively for equality with the speaker's nickname; otherwise the
speaker's lowercased nickname must start with the lowercased key stripped of
trailing `*`/`:` characters. -/
def matchesKey (remkey tellee : Str) : Bool :=
  if !(pyEndsWith remkey '*') || pyEndsWith remkey ':' then
    decide (pyLower tellee = pyLower remkey)
  else
    List.isPrefixOf (pyRStripSet (chars "*:") (pyLower remkey)) (pyLower tellee)

/-- One delivery line: `"%s: %s <%s> %s %s %s" % (tellee, datetime, teller,
verb, tellee, msg)`, with the timestamp's leading `today` date (plus the
following separator character) elided when the timestamp starts with it. -/
def formatLine (tellee today : Str) (r : Reminder) : Str :=
  let dt := if List.isPrefixOf today r.timenow then r.timenow.drop (today.length + 1)
            else r.timenow
  tellee ++ chars ": " ++ dt ++ chars " <" ++ r.teller ++ chars "> " ++ r.verb ++
    chars " " ++ tellee ++ chars " " ++ r.msg

/-- `getReminders`: format every reminder stored under `key` and delete the key.
The index is a `defaultdict(list)`, so reading an absent key first materializes
an empty entry (at the end of the dict); the subsequent `del` then always finds
the key, and the `except KeyError: bot.say('Er…')` branch is recorded in the
returned Bool (true when the filler error reply was said). -/
def getReminders (d : ReminderIndex) (key tellee today : Str) :
    List Str × ReminderIndex × Bool :=
  let got := match lookupKey d key with
    | some rs => (rs, d)
    | none => (([] : List Reminder), d ++ [(key, [])])
  let lines := got.1.map (formatLine tellee today)
  if got.2.any (fun p => decide (p.1 = key)) then
    (lines, got.2.filter (fun p => decide (p.1 ≠ key)), false)
  else
    (lines, got.2, true)

/-- An outbound message of the delivery matcher: either said publicly in the
triggering channel, or sent privately to a nickname. -/
inductive SayEvent where
  | pub : Str → SayEvent
  | priv : Str → Str → SayEvent
deriving DecidableEq

/-- The delivery tail of `message`: say `reminders[:MAXIMUM]` publicly; if
`reminders[MAXIMUM:]` is non-empty, say the private-delivery notice publicly
and then send the remaining lines privately to the speaker, in order. -/
def deliver (reminders : List Str) (tellee : Str) : List SayEvent :=
  (reminders.take MAXIMUM).map SayEvent.pub ++
    (if (reminders.drop MAXIMUM).isEmpty then []
     else SayEvent.pub (chars "Further messages sent privately") ::
       (reminders.drop MAXIMUM).map (fun l => SayEvent.priv tellee l))

/-- State threaded through the key loop of `message`: the evolving index, the
collected formatted lines, and the error replies said so far. -/
structure LoopState where
  index : ReminderIndex
  collected : List Str
  errs : List SayEvent
deriving DecidableEq

/-- The key loop of `message`: for each snapshot key, if it matches the
speaker, collect the formatted reminders via `getReminders` (which also
removes the key from the index). -/
def msgLoop (tellee today : Str) : List Str → LoopState → LoopState
  | [], st => st
  | k :: rest, st =>
    if matchesKey k tellee then
      let (lines, d', er) := getReminders st.index k tellee today
      msgLoop tellee today rest
        ⟨d', st.collected ++ lines,
          st.errs ++ (if er then [SayEvent.pub (chars "Er…")] else [])⟩
    else
      msgLoop tellee today rest st

/-- Lexicographic comparison of strings by character code, Python's `sorted`
order on strings. -/
def strLe : Str → Str → Bool
  | [], _ => true
  | _ :: _, [] => false
  | a :: as, b :: bs => if a = b then strLe as bs else decide (a < b)

/-- `strLe` as a relation, for `List.insertionSort`. -/
def strLeP (a b : Str) : Prop := strLe a b = true

instance : DecidableRel strLeP := fun a b => instDecidableEqBool (strLe a b) true

/-- Python's `len(finalKeys) != remkeys` compares an integer with a list; in
Python a comparison between an int and a list is always unequal, so the test
is constantly true and the file is rewritten on every invocation. -/
def pyIntNeList (_n : Nat) (_l : List Str) : Bool := true

/-- The full result of one `message` invocation: the final index, the
collected formatted lines, the outbound messages in order, and whether the
index was persisted to the file at the end. -/
structure MsgResult where
  index : ReminderIndex
  collected : List Str
  outbox : List SayEvent
  saved : Bool
deriving DecidableEq

/-- The `message` rule handler: snapshot the keys in reverse sorted order, run
the matching loop, deliver the collected lines, and decide whether to dump
the index back to the file. -/
def message (d : ReminderIndex) (tellee today : Str) : MsgResult :=
  let remkeys := (List.insertionSort strLeP (d.map Prod.fst)).reverse
  let st := msgLoop tellee today remkeys ⟨d, [], []⟩
  ⟨st.index, st.collected, st.errs ++ deliver st.collected tellee,
    pyIntNeList st.index.length remkeys⟩

/-- Modelled from the spec: equality of `sopel.tools.Identifier` values (the
nickname normalization collaborator, outside `src/`) is a case-insensitive
nickname comparison. -/
def identEq (a b : Str) : Bool := decide (pyLower a = pyLower b)

/-- Dict update keyed by `Identifier` equality: append to the first entry whose
key is identifier-equal to `k`, or create the key at the end of the dict, the
combined effect of the `if tellee not in reminders ... else ... append` block. -/
def idAppend : ReminderIndex → Str → Reminder → ReminderIndex
  | [], k, r => [(k, [r])]
  | (k', rs) :: rest, k, r =>
    if identEq k' k then (k', rs ++ [r]) :: rest
    else (k', rs) :: idAppend rest k r

/-- Dict lookup keyed by `Identifier` equality. -/
def idLookup : ReminderIndex → Str → Option (List Reminder)
  | [], _ => none
  | (k', rs) :: rest, k => if identEq k' k then some rs else idLookup rest k

/-- The outcome of one `f_remind` invocation: the (possibly updated) index, the
file content written by `dump_reminders` when a write happened, and the reply
sent to the requester (via `bot.reply` or `bot.say`), if any. -/
structure EnqueueResult where
  index : ReminderIndex
  written : Option Str
  reply : Option Str
deriving DecidableEq

/-- The `f_remind` command handler: `teller` is the requesting nickname, `verb`
the command word, `group3` the first argument token, `group2` the full argument
text, `botNick` the bot's nickname and `timenow` the timestamp string produced
by the external time-formatting collaborator. -/
def f_remind (fileExists : Bool) (d : ReminderIndex)
    (teller verb group3 group2 botNick timenow : Str) : EnqueueResult :=
  if group3 = [] then ⟨d, none, some (verb ++ chars " whom?")⟩
  else
    let tellee := pyRStripSet (chars ".,:;") group3
    let msg := pyLStrip (pyLStripSet tellee group2)
    if msg = [] then ⟨d, none, some (verb ++ chars " " ++ tellee ++ chars " what?")⟩
    else if !fileExists then ⟨d, none, none⟩
    else if 30 < tellee.length then
      ⟨d, none, some (chars "That nickname is too long.")⟩
    else if identEq tellee botNick then
      ⟨d, none, some (chars "I\x27m here now; you can tell me whatever you want!")⟩
    else if !(identEq tellee teller || identEq tellee botNick ||
        identEq tellee (chars "me")) then
      let d' := idAppend d tellee ⟨teller, verb, timenow, msg⟩
      ⟨d', some (dump_reminders d'),
        some (chars "I\x27ll pass that on when " ++ tellee ++ chars " is around.")⟩
    else if identEq teller tellee then
      ⟨d, none, some (chars "You can " ++ verb ++ chars " yourself that.")⟩
    else
      ⟨d, none, some (chars "Hey, I\x27m not as stupid as Monty you know!")⟩

/-- Shape of a recipient key produced by `load_reminders`: non-empty, its head
is not whitespace (the line was stripped), and it contains no tab and no
newline. -/
def GoodKey (k : Str) : Prop :=
  k ≠ [] ∧ (∀ c, k.head? = some c → pyIsSpace c = false) ∧ '\t' ∉ k ∧ '\n' ∉ k

/-- Shape of a reminder produced by `load_reminders`: the first three fields
contain no tab and no newline; the message contains no newline, is non-empty
and does not end in whitespace (the line was stripped), though it may contain
tabs (maxsplit keeps the tail intact). -/
def GoodRem (r : Reminder) : Prop :=
  '\t' ∉ r.teller ∧ '\n' ∉ r.teller ∧ '\t' ∉ r.verb ∧ '\n' ∉ r.verb ∧
  '\t' ∉ r.timenow ∧ '\n' ∉ r.timenow ∧ '\n' ∉ r.msg ∧ r.msg ≠ [] ∧
  (∀ c, r.msg.getLast? = some c → pyIsSpace c = false)

/-- Invariant of every index produced by `load_reminders`: keys are distinct,
entries are well-shaped and every key holds a non-empty reminder list. -/
def Inv (d : ReminderIndex) : Prop :=
  (d.map Prod.fst).Nodup ∧ ∀ p ∈ d, GoodKey p.1 ∧ p.2 ≠ [] ∧ ∀ r ∈ p.2, GoodRem r

/-! ### Association-list lemmas -/

theorem lookupKey_none_iff (d : ReminderIndex) (key : Str) :
    lookupKey d key = none ↔ ∀ p ∈ d, p.1 ≠ key := by
  induction d with
  | nil => simp [lookupKey]
  | cons hd tl ih =>
    obtain ⟨k', rs⟩ := hd
    by_cases h : k' = key
    · subst h; simp [lookupKey]
    · simp [lookupKey, h, ih]

theorem lookupKey_any (d : ReminderIndex) (key : Str) (rs : List Reminder)
    (h : lookupKey d key = some rs) : d.any (fun p => decide (p.1 = key)) = true := by
  induction d with
  | nil => simp [lookupKey] at h
  | cons hd tl ih =>
    obtain ⟨k', rs'⟩ := hd
    by_cases hk : k' = key
    · simp [hk]
    · simp only [lookupKey, if_neg hk] at h
      simp [ih h]

theorem lookupKey_filter_self (d : ReminderIndex) (key : Str) :
    lookupKey (d.filter (fun p => decide (p.1 ≠ key))) key = none := by
  induction d with
  | nil => simp [lookupKey]
  | cons hd tl ih =>
    obtain ⟨k', rs⟩ := hd
    by_cases h : k' = key
    · subst h; simpa [List.filter_cons] using ih
    · simpa [List.filter_cons, h, lookupKey] using ih

theorem lookupKey_filter_ne (d : ReminderIndex) (k k0 : Str) (h : k ≠ k0) :
    lookupKey (d.filter (fun p => decide (p.1 ≠ k0))) k = lookupKey d k := by
  induction d with
  | nil => simp
  | cons hd tl ih =>
    obtain ⟨k', rs⟩ := hd
    by_cases h0 : k' = k0
    · subst h0
      have : k' ≠ k := fun he => h he.symm
      simpa [List.filter_cons, lookupKey, this] using ih
    · by_cases hk : k' = k
      · subst hk; simp [List.filter_cons, h0, lookupKey]
      · simpa [List.filter_cons, h0, lookupKey, hk] using ih

/-- Full characterization of `getReminders`: it formats the stored list of the
key (empty when absent), removes every entry of the key from the index, and
never says the filler error reply. -/
theorem getReminders_eq (d : ReminderIndex) (key tellee today : Str) :
    getReminders d key tellee today =
      (((lookupKey d key).getD []).map (formatLine tellee today),
        d.filter (fun p => decide (p.1 ≠ key)), false) := by
  unfold getReminders
  cases h : lookupKey d key with
  | some rs =>
    have hany : d.any (fun p => decide (p.1 = key)) = true := lookupKey_any d key rs h
    simp [h, hany]
  | none =>
    have hany : (d ++ [(key, ([] : List Reminder))]).any
        (fun p => decide (p.1 = key)) = true := by
      simp [List.any_append]
    simp [h, hany, List.filter_append]

/-- C3: for every key present in the index, a matched delivery formats and
collects the full stored list in order, deletes the key from the index
entirely (no entry for the key remains afterwards), and never delivers a
shortened list. -/
theorem delivery_removes_whole_key (d : ReminderIndex) (key tellee today : Str)
    (rs : List Reminder) (h : lookupKey d key = some rs) :
    getReminders d key tellee today =
      (rs.map (formatLine tellee today),
        d.filter (fun p => decide (p.1 ≠ key)), false) ∧
    lookupKey (d.filter (fun p => decide (p.1 ≠ key))) key = none := by
  refine ⟨?_, lookupKey_filter_self d key⟩
  rw [getReminders_eq, h]
  rfl

/-- Witness for C3 at a concrete two-reminder index. -/
theorem delivery_removes_whole_key_witness :
    getReminders
        [(chars "bob", [⟨chars "al", chars "tell", chars "ts", chars "hi"⟩,
          ⟨chars "cy", chars "ask", chars "ts2", chars "yo"⟩])]
        (chars "bob") (chars "Bob") (chars "01 Jan") =
      ([⟨chars "al", chars "tell", chars "ts", chars "hi"⟩,
        ⟨chars "cy", chars "ask", chars "ts2", chars "yo"⟩].map
          (formatLine (chars "Bob") (chars "01 Jan")),
        ([(chars "bob", [⟨chars "al", chars "tell", chars "ts", chars "hi"⟩,
          ⟨chars "cy", chars "ask", chars "ts2", chars "yo"⟩])] :
          ReminderIndex).filter (fun p => decide (p.1 ≠ chars "bob")), false) ∧
    lookupKey
      (([(chars "bob", [⟨chars "al", chars "tell", chars "ts", chars "hi"⟩,
        ⟨chars "cy", chars "ask", chars "ts2", chars "yo"⟩])] :
        ReminderIndex).filter (fun p => decide (p.1 ≠ chars "bob")))
      (chars "bob") = none :=
  delivery_removes_whole_key _ _ _ _ _ (by decide)

/-- C9 counterexample: with the key absent from the index, `getReminders`
says nothing at all — in particular it does not say the filler error reply
`Er…` — because the `defaultdict` access materializes an empty entry that the
subsequent `del` removes again, leaving the index unchanged. -/
theorem absent_key_counterexample :
    getReminders [] (chars "bob") (chars "bob") (chars "01 Jan") =
      ([], [], false) := by decide

/-- C9 amended: when the matched key is absent from the index, `getReminders`
collects nothing, leaves the index unchanged and raises no fault, but it also
emits no reply: the `except KeyError` filler branch is unreachable because the
`defaultdict` access inserts the key before the deletion. -/
theorem absent_key_is_silent (d : ReminderIndex) (key tellee today : Str)
    (h : lookupKey d key = none) :
    getReminders d key tellee today = ([], d, false) := by
  rw [getReminders_eq, h]
  have : d.filter (fun p => decide (p.1 ≠ key)) = d :=
    List.filter_eq_self.mpr (by
      intro p hp
      simpa using (lookupKey_none_iff d key).mp h p hp)
  simp only [this, Option.getD_none, List.map_nil]

/-- Witness for C9 (amended) on a concrete index missing the key. -/
theorem absent_key_is_silent_witness :
    getReminders [(chars "ann", [⟨chars "al", chars "tell", chars "ts", chars "hi"⟩])]
        (chars "bob") (chars "bob") (chars "01 Jan") =
      ([], [(chars "ann", [⟨chars "al", chars "tell", chars "ts", chars "hi"⟩])], false) :=
  absent_key_is_silent _ _ _ _ (by decide)

/-- C5: the delivery tail says the first `min(n, MAXIMUM)` collected lines
publicly; when more than `MAXIMUM` lines were collected it additionally says
one public notice and then sends lines `MAXIMUM+1 .. n` privately to the
speaker, in order. -/
theorem deliver_public_private_split (reminders : List Str) (tellee : Str) :
    deliver reminders tellee =
      if reminders.length ≤ MAXIMUM then reminders.map SayEvent.pub
      else (reminders.take MAXIMUM).map SayEvent.pub ++
        SayEvent.pub (chars "Further messages sent privately") ::
          (reminders.drop MAXIMUM).map (fun l => SayEvent.priv tellee l) := by
  unfold deliver
  by_cases h : reminders.length ≤ MAXIMUM
  · have hd : reminders.drop MAXIMUM = [] := by
      simpa [List.drop_eq_nil_iff] using h
    simp [h, hd, List.take_of_length_le h]
  · have hd : ¬reminders.drop MAXIMUM = [] := by
      simpa [List.drop_eq_nil_iff] using h
    simp [h, hd]

/-- C6: the index is persisted on every `message` invocation even when no key
matched and nothing was removed: the source compares `len(keys)` (an int) with
`remkeys` (a list), which in Python is always unequal. Evaluated at a failing
input: one key `bob`, speaker `alice`, no match, index unchanged, yet
`saved = true`. -/
theorem message_saves_without_removal :
    (message [(chars "bob", [⟨chars "al", chars "tell", chars "ts", chars "hi"⟩])]
        (chars "alice") (chars "01 Jan")).index =
      [(chars "bob", [⟨chars "al", chars "tell", chars "ts", chars "hi"⟩])] ∧
    (message [(chars "bob", [⟨chars "al", chars "tell", chars "ts", chars "hi"⟩])]
        (chars "alice") (chars "01 Jan")).saved = true := by decide

/-- A key ending in `*:` ends in `:`. -/
theorem pyEndsWith_colon_of_suffix (remkey : Str)
    (h : List.isSuffixOf (chars "*:") remkey = true) :
    pyEndsWith remkey ':' = true := by
  obtain ⟨t, ht⟩ := List.isSuffixOf_iff_suffix.mp h
  subst ht
  simp [pyEndsWith, List.getLast?_append, chars]

/-- C1 counterexample: the stored key `Bob*:` ends in `*:` and the speaker
`bob` equals the key stripped of its `*:` suffix case-insensitively, yet the
delivery matcher does not match — the exact branch compares against the whole
key, suffix included. -/
theorem starColon_match_counterexample :
    List.isSuffixOf (chars "*:") (chars "Bob*:") = true ∧
    pyLower (chars "bob") = pyLower (pyRStripSet (chars "*:") (chars "Bob*:")) ∧
    matchesKey (chars "Bob*:") (chars "bob") = false := by decide

/-- C1 amended: a key ending in `*` matches exactly when the speaker's
lowercased nickname starts with the lowercased key stripped of trailing
`*`/`:` characters; a key ending in `*:` matches exactly when the speaker's
nickname case-insensitively equals the whole key, its `*:` suffix included. -/
theorem matchesKey_amended (remkey tellee : Str) :
    (pyEndsWith remkey '*' = true →
      matchesKey remkey tellee =
        List.isPrefixOf (pyRStripSet (chars "*:") (pyLower remkey)) (pyLower tellee)) ∧
    (List.isSuffixOf (chars "*:") remkey = true →
      matchesKey remkey tellee = decide (pyLower tellee = pyLower remkey)) := by
  constructor
  · intro h
    have hc : pyEndsWith remkey ':' = false := by
      simp only [pyEndsWith, decide_eq_true_eq] at h ⊢
      simp [h]
    simp [matchesKey, h, hc]
  · intro h
    have hc : pyEndsWith remkey ':' = true := pyEndsWith_colon_of_suffix remkey h
    simp [matchesKey, hc]

/-- Witness for C1 (amended), at a prefix-wildcard key and an exact `*:` key. -/
theorem matchesKey_amended_witness :
    matchesKey (chars "ali*") (chars "Alice") =
      List.isPrefixOf (pyRStripSet (chars "*:") (pyLower (chars "ali*")))
        (pyLower (chars "Alice")) ∧
    matchesKey (chars "Bob*:") (chars "BOB*:") =
      decide (pyLower (chars "BOB*:") = pyLower (chars "Bob*:")) :=
  ⟨(matchesKey_amended (chars "ali*") (chars "Alice")).1 (by decide),
   (matchesKey_amended (chars "Bob*:") (chars "BOB*:")).2 (by decide)⟩

/-- `split` with maxsplit `n` yields at most `n + 1` pieces. -/
theorem pySplitMax_length_le (c : Char) (n : Nat) (s : Str) :
    (pySplitMax c n s).length ≤ n + 1 := by
  induction s generalizing n with
  | nil => cases n <;> simp [pySplitMax]
  | cons x xs ih =>
    cases n with
    | zero => simp [pySplitMax]
    | succ m =>
      by_cases hx : x = c
      · simpa [pySplitMax, hx] using Nat.succ_le_succ (ih m)
      · have h := ih (m + 1)
        cases hr : pySplitMax c (m + 1) xs with
        | nil => simp [pySplitMax, hx, hr]
        | cons y ys =>
          rw [hr] at h
          simp only [pySplitMax, if_neg hx, hr]
          simp only [List.length_cons] at h ⊢
          simp only [List.headD_cons, List.tail_cons, List.length_cons]
          omega

/-- C7: a non-empty stripped line is incorporated into the index exactly when
splitting it on tab with maxsplit 4 yields exactly 5 fields, in which case the
reminder appended is built from those fields; otherwise the line is skipped
and the index is returned unchanged. -/
theorem malformed_line_skipped (acc : ReminderIndex) (rawLine : Str)
    (h : pyStrip rawLine ≠ []) :
    processLine acc rawLine =
      if (pySplitMax '\t' 4 (pyStrip rawLine)).length = 5 then
        appendReminder acc ((pySplitMax '\t' 4 (pyStrip rawLine)).headD [])
          ⟨(pySplitMax '\t' 4 (pyStrip rawLine)).getD 1 [],
           (pySplitMax '\t' 4 (pyStrip rawLine)).getD 2 [],
           (pySplitMax '\t' 4 (pyStrip rawLine)).getD 3 [],
           (pySplitMax '\t' 4 (pyStrip rawLine)).getD 4 []⟩
      else acc := by
  have hlen := pySplitMax_length_le '\t' 4 (pyStrip rawLine)
  unfold processLine
  rcases hl : pySplitMax '\t' 4 (pyStrip rawLine) with
    _ | ⟨t1, _ | ⟨t2, _ | ⟨t3, _ | ⟨t4, _ | ⟨t5, _ | ⟨t6, ts⟩⟩⟩⟩⟩⟩ <;>
      rw [hl] at hlen <;> simp_all

/-- Witness for C7: a well-formed line is appended, using the theorem at a
concrete 5-field line. -/
theorem malformed_line_skipped_witness :
    processLine [] (chars "bob\tal\ttell\tts\thi") =
      if (pySplitMax '\t' 4 (pyStrip (chars "bob\tal\ttell\tts\thi"))).length = 5 then
        appendReminder []
          ((pySplitMax '\t' 4 (pyStrip (chars "bob\tal\ttell\tts\thi"))).headD [])
          ⟨(pySplitMax '\t' 4 (pyStrip (chars "bob\tal\ttell\tts\thi"))).getD 1 [],
           (pySplitMax '\t' 4 (pyStrip (chars "bob\tal\ttell\tts\thi"))).getD 2 [],
           (pySplitMax '\t' 4 (pyStrip (chars "bob\tal\ttell\tts\thi"))).getD 3 [],
           (pySplitMax '\t' 4 (pyStrip (chars "bob\tal\ttell\tts\thi"))).getD 4 []⟩
      else [] :=
  malformed_line_skipped [] (chars "bob\tal\ttell\tts\thi") (by decide)

theorem identEq_iff (a b : Str) : identEq a b = true ↔ pyLower a = pyLower b := by
  simp [identEq]

theorem identEq_refl (a : Str) : identEq a a = true := by simp [identEq]

theorem identEq_symm (a b : Str) : identEq a b = identEq b a := by
  by_cases h : pyLower a = pyLower b
  · simp [identEq, h]
  · have h' : ¬pyLower b = pyLower a := fun hh => h hh.symm
    simp [identEq, h, h']

theorem idLookup_idAppend_self (d : ReminderIndex) (k : Str) (r : Reminder) :
    idLookup (idAppend d k r) k = some ((idLookup d k).getD [] ++ [r]) := by
  induction d with
  | nil => simp [idAppend, idLookup, identEq_refl]
  | cons hd tl ih =>
    obtain ⟨k', rs⟩ := hd
    by_cases h : identEq k' k = true
    · simp [idAppend, idLookup, h]
    · have hb : identEq k' k = false := by simpa using h
      simp [idAppend, idLookup, hb, ih]

theorem idLookup_idAppend_other (d : ReminderIndex) (k k0 : Str) (r : Reminder)
    (h : identEq k0 k = false) :
    idLookup (idAppend d k r) k0 = idLookup d k0 := by
  induction d with
  | nil =>
    have hk : identEq k k0 = false := by rw [identEq_symm]; exact h
    simp [idAppend, idLookup, hk]
  | cons hd tl ih =>
    obtain ⟨k', rs⟩ := hd
    by_cases hq : identEq k' k = true
    · have hk0 : identEq k' k0 = false := by
        rw [Bool.eq_false_iff]
        intro hcon
        have e1 := (identEq_iff k' k).mp hq
        have e2 := (identEq_iff k' k0).mp hcon
        have : identEq k0 k = true := (identEq_iff k0 k).mpr (e2.symm.trans e1)
        rw [this] at h
        simp at h
      simp [idAppend, idLookup, hq, hk0]
    · have hqb : identEq k' k = false := by simpa using hq
      by_cases hk' : identEq k' k0 = true
      · simp [idAppend, idLookup, hqb, hk']
      · have hk'b : identEq k' k0 = false := by simpa using hk'
        simp [idAppend, idLookup, hqb, hk'b, ih]

theorem idAppend_mem (d : ReminderIndex) (k : Str) (r : Reminder) :
    ∃ k' rs, identEq k' k = true ∧ (k', rs) ∈ idAppend d k r ∧ r ∈ rs := by
  induction d with
  | nil => exact ⟨k, [r], identEq_refl k, by simp [idAppend], by simp⟩
  | cons hd tl ih =>
    obtain ⟨k', rs⟩ := hd
    by_cases hq : identEq k' k = true
    · exact ⟨k', rs ++ [r], hq, by simp [idAppend, hq], by simp⟩
    · obtain ⟨k'', rs'', e1, e2, e3⟩ := ih
      have hqb : identEq k' k = false := by simpa using hq
      exact ⟨k'', rs'', e1, by simp [idAppend, hqb]; right; exact e2, e3⟩

theorem infix_flatten_newline (L : List Str) (l : Str) :
    l ∈ L → l <:+: (L.map (fun x => x ++ ['\n'])).flatten := by
  induction L with
  | nil => intro h; simp at h
  | cons y ys ih =>
    intro h
    rcases List.mem_cons.mp h with h | h
    · subst h
      exact ⟨[], '\n' :: (ys.map (fun x => x ++ ['\n'])).flatten, by simp⟩
    · obtain ⟨s, t, hst⟩ := ih h
      exact ⟨(y ++ ['\n']) ++ s, t, by simp [← hst]⟩

theorem dumpLine_infix (data : ReminderIndex) (k : Str) (rs : List Reminder)
    (r : Reminder) (hm : (k, rs) ∈ data) (hr : r ∈ rs) :
    dumpLine k r <:+: dump_reminders data := by
  have hmem : dumpLine k r ∈ (data.map (fun p => p.2.map (dumpLine p.1))).flatten := by
    rw [List.mem_flatten]
    exact ⟨rs.map (dumpLine k), List.mem_map.mpr ⟨(k, rs), hm, rfl⟩,
      List.mem_map.mpr ⟨r, hr, rfl⟩⟩
  exact infix_flatten_newline _ _ hmem

/-- C4: a valid enqueue request (recipient and message present, recipient at
most 30 characters, not the bot, not the requester, not `me`) appends exactly
one reminder at the end of the recipient's list (creating the key if absent),
leaves every other key's list unchanged, and the file content written during
the call contains a line for that reminder. -/
theorem f_remind_enqueues (d : ReminderIndex)
    (teller verb group3 group2 botNick timenow tellee msg : Str)
    (ht : tellee = pyRStripSet (chars ".,:;") group3)
    (hm : msg = pyLStrip (pyLStripSet tellee group2))
    (h1 : group3 ≠ [])
    (h2 : msg ≠ [])
    (h3 : tellee.length ≤ 30)
    (h4 : identEq tellee botNick = false)
    (h5 : identEq tellee teller = false)
    (h6 : identEq tellee (chars "me") = false) :
    f_remind true d teller verb group3 group2 botNick timenow =
      ⟨idAppend d tellee ⟨teller, verb, timenow, msg⟩,
        some (dump_reminders (idAppend d tellee ⟨teller, verb, timenow, msg⟩)),
        some (chars "I\x27ll pass that on when " ++ tellee ++ chars " is around.")⟩ ∧
    idLookup (idAppend d tellee ⟨teller, verb, timenow, msg⟩) tellee =
      some ((idLookup d tellee).getD [] ++ [⟨teller, verb, timenow, msg⟩]) ∧
    (∀ k, identEq k tellee = false →
      idLookup (idAppend d tellee ⟨teller, verb, timenow, msg⟩) k = idLookup d k) ∧
    (∃ k', identEq k' tellee = true ∧
      dumpLine k' ⟨teller, verb, timenow, msg⟩ <:+:
        dump_reminders (idAppend d tellee ⟨teller, verb, timenow, msg⟩)) := by
  subst ht
  subst hm
  refine ⟨?_, idLookup_idAppend_self d _ _, fun k hk => idLookup_idAppend_other d _ k _ hk, ?_⟩
  · have h3' : ¬(30 < (pyRStripSet (chars ".,:;") group3).length) := Nat.not_lt.mpr h3
    simp [f_remind, h1, h2, h3', h4, h5, h6]
  · obtain ⟨k', rs', e1, e2, e3⟩ := idAppend_mem d (pyRStripSet (chars ".,:;") group3)
      ⟨teller, verb, timenow, pyLStrip (pyLStripSet (pyRStripSet (chars ".,:;") group3) group2)⟩
    exact ⟨k', e1, dumpLine_infix _ k' rs' _ e2 e3⟩

/-- Witness for C4: `alice` tells `bob hello`; the handler returns exactly the
appended index, the dumped file content, and the confirmation reply. -/
theorem f_remind_enqueues_witness :
    f_remind true [] (chars "alice") (chars "tell") (chars "bob") (chars "bob hello")
        (chars "sopel") (chars "ts") =
      ⟨idAppend [] (chars "bob") ⟨chars "alice", chars "tell", chars "ts", chars "hello"⟩,
        some (dump_reminders (idAppend [] (chars "bob")
          ⟨chars "alice", chars "tell", chars "ts", chars "hello"⟩)),
        some (chars "I\x27ll pass that on when " ++ chars "bob" ++ chars " is around.")⟩ :=
  (f_remind_enqueues [] (chars "alice") (chars "tell") (chars "bob") (chars "bob hello")
    (chars "sopel") (chars "ts") (chars "bob") (chars "hello") (by decide) (by decide)
    (by decide) (by decide) (by decide) (by decide) (by decide) (by decide)).1

/-- C8 counterexample: `alice` addressing the literal token `me` (not her own
nickname, not the bot) gets the sarcastic `Monty` reply, not
`You can tell yourself that.`; no mutation happens either way. -/
theorem remind_me_counterexample :
    f_remind true [] (chars "alice") (chars "tell") (chars "me") (chars "me buy milk")
        (chars "sopel") (chars "ts") =
      ⟨[], none, some (chars "Hey, I\x27m not as stupid as Monty you know!")⟩ := by
  decide

/-- C8 amended: with recipient and message present, recipient within the
length cap and not the bot: a recipient case-insensitively equal to the
requester's nickname gets `You can <verb> yourself that.`; a recipient equal
to the literal token `me` (but not to the requester) gets the sarcastic
`Monty` refusal; in both cases the index is unchanged and no file is written. -/
theorem f_remind_self_addressed (d : ReminderIndex)
    (teller verb group3 group2 botNick timenow tellee msg : Str)
    (ht : tellee = pyRStripSet (chars ".,:;") group3)
    (hm : msg = pyLStrip (pyLStripSet tellee group2))
    (h1 : group3 ≠ [])
    (h2 : msg ≠ [])
    (h3 : tellee.length ≤ 30)
    (h4 : identEq tellee botNick = false) :
    (identEq tellee teller = true →
      f_remind true d teller verb group3 group2 botNick timenow =
        ⟨d, none, some (chars "You can " ++ verb ++ chars " yourself that.")⟩) ∧
    (identEq tellee teller = false → identEq tellee (chars "me") = true →
      f_remind true d teller verb group3 group2 botNick timenow =
        ⟨d, none, some (chars "Hey, I\x27m not as stupid as Monty you know!")⟩) := by
  subst ht
  subst hm
  have h3' : ¬(30 < (pyRStripSet (chars ".,:;") group3).length) := Nat.not_lt.mpr h3
  constructor
  · intro h5
    have h5' : identEq teller (pyRStripSet (chars ".,:;") group3) = true := by
      rw [identEq_symm]; exact h5
    simp [f_remind, h1, h2, h3', h4, h5, h5']
  · intro h5 h6
    have h5' : identEq teller (pyRStripSet (chars ".,:;") group3) = false := by
      rw [identEq_symm]; exact h5
    simp [f_remind, h1, h2, h3', h4, h5, h5', h6]

/-- Witness for C8 (amended): a self-addressed request and a `me`-addressed
request, both at concrete inputs. -/
theorem f_remind_self_addressed_witness :
    f_remind true [] (chars "alice") (chars "tell") (chars "alice")
        (chars "alice remember milk") (chars "sopel") (chars "ts") =
      ⟨[], none, some (chars "You can " ++ chars "tell" ++ chars " yourself that.")⟩ ∧
    f_remind true [] (chars "alice") (chars "ask") (chars "me") (chars "me a question")
        (chars "sopel") (chars "ts") =
      ⟨[], none, some (chars "Hey, I\x27m not as stupid as Monty you know!")⟩ :=
  ⟨(f_remind_self_addressed [] (chars "alice") (chars "tell") (chars "alice")
      (chars "alice remember milk") (chars "sopel") (chars "ts") (chars "alice")
      (chars "remember milk") (by decide) (by decide) (by decide) (by decide)
      (by decide) (by decide)).1 (by decide),
   (f_remind_self_addressed [] (chars "alice") (chars "ask") (chars "me")
      (chars "me a question") (chars "sopel") (chars "ts") (chars "me")
      (chars "a question") (by decide) (by decide) (by decide) (by decide)
      (by decide) (by decide)).2 (by decide) (by decide)⟩

theorem lookupKey_mem_keys (d : ReminderIndex) (k : Str) (rs : List Reminder)
    (h : lookupKey d k = some rs) : k ∈ d.map Prod.fst := by
  induction d with
  | nil => simp [lookupKey] at h
  | cons hd tl ih =>
    obtain ⟨k', rs'⟩ := hd
    by_cases hk : k' = k
    · simp [hk]
    · simp only [lookupKey, if_neg hk] at h
      simp [ih h]

theorem lookupKey_filter_none_of (d : ReminderIndex) (k : Str)
    (f : Str × List Reminder → Bool) (hf : ∀ p, p.1 = k → f p = false) :
    lookupKey (d.filter f) k = none := by
  induction d with
  | nil => simp [lookupKey]
  | cons hd tl ih =>
    obtain ⟨k', rs⟩ := hd
    by_cases h : k' = k
    · subst h; simp [List.filter_cons, hf (k', rs) rfl, ih]
    · cases hfk : f (k', rs) <;> simp [List.filter_cons, hfk, lookupKey, h, ih]

/-! ### Lemmas about the `message` key loop -/

theorem msgLoop_cons_matched (tellee today k : Str) (ks : List Str) (st : LoopState)
    (h : matchesKey k tellee = true) :
    msgLoop tellee today (k :: ks) st =
      msgLoop tellee today ks
        ⟨st.index.filter (fun p => decide (p.1 ≠ k)),
          st.collected ++ ((lookupKey st.index k).getD []).map (formatLine tellee today),
          st.errs⟩ := by
  simp [msgLoop, h, getReminders_eq]

theorem msgLoop_cons_unmatched (tellee today k : Str) (ks : List Str) (st : LoopState)
    (h : matchesKey k tellee = false) :
    msgLoop tellee today (k :: ks) st = msgLoop tellee today ks st := by
  simp [msgLoop, h]

/-- The loop's final index: the initial index with every entry dropped whose
key is a matching snapshot key. -/
theorem msgLoop_index (tellee today : Str) (ks : List Str) (st : LoopState) :
    (msgLoop tellee today ks st).index =
      st.index.filter (fun p =>
        !(ks.any (fun k => matchesKey k tellee && decide (p.1 = k)))) := by
  induction ks generalizing st with
  | nil => simp [msgLoop]
  | cons k rest ih =>
    by_cases h : matchesKey k tellee = true
    · rw [msgLoop_cons_matched _ _ _ _ _ h, ih]
      simp only [List.filter_filter]
      refine List.filter_congr ?_
      intro p _
      by_cases hp : p.1 = k <;> simp [h, hp]
    · have hb : matchesKey k tellee = false := by simpa using h
      rw [msgLoop_cons_unmatched _ _ _ _ _ hb, ih]
      refine List.filter_congr ?_
      intro p _
      simp [hb]

/-- The loop only ever appends to the collected lines. -/
theorem msgLoop_collected_mono (tellee today : Str) (ks : List Str) (st : LoopState) :
    ∃ extra, (msgLoop tellee today ks st).collected = st.collected ++ extra := by
  induction ks generalizing st with
  | nil => exact ⟨[], by simp [msgLoop]⟩
  | cons k rest ih =>
    by_cases h : matchesKey k tellee = true
    · rw [msgLoop_cons_matched _ _ _ _ _ h]
      obtain ⟨e, he⟩ := ih _
      exact ⟨((lookupKey st.index k).getD []).map (formatLine tellee today) ++ e,
        by rw [he]; simp⟩
    · rw [msgLoop_cons_unmatched _ _ _ _ _ (by simpa using h)]
      exact ih st

/-- Every reminder stored under a matching snapshot key is formatted and
collected by the loop. -/
theorem msgLoop_collects (tellee today k : Str) (rs : List Reminder) :
    ∀ (ks : List Str) (st : LoopState), k ∈ ks → ks.Nodup →
      matchesKey k tellee = true → lookupKey st.index k = some rs →
      ∀ r ∈ rs, formatLine tellee today r ∈ (msgLoop tellee today ks st).collected := by
  intro ks
  induction ks with
  | nil => intro st h; simp at h
  | cons k0 rest ih =>
    intro st hmem hnd hmatch hlook r hr
    rcases List.mem_cons.mp hmem with rfl | he
    · rw [msgLoop_cons_matched _ _ _ _ _ hmatch]
      obtain ⟨e, hex⟩ := msgLoop_collected_mono tellee today rest
        ⟨st.index.filter (fun p => decide (p.1 ≠ k)),
          st.collected ++ ((lookupKey st.index k).getD []).map (formatLine tellee today),
          st.errs⟩
      rw [hex]
      simp only [hlook, Option.getD_some, List.mem_append, List.mem_map]
      exact Or.inl (Or.inr ⟨r, hr, rfl⟩)
    · have hk0 : k0 ≠ k := by
        intro he0
        subst he0
        exact (List.nodup_cons.mp hnd).1 he
      by_cases h0 : matchesKey k0 tellee = true
      · rw [msgLoop_cons_matched _ _ _ _ _ h0]
        refine ih _ he (List.nodup_cons.mp hnd).2 hmatch ?_ r hr
        show lookupKey (st.index.filter (fun p => decide (p.1 ≠ k0))) k = some rs
        rw [lookupKey_filter_ne st.index k k0 (fun he0 => hk0 he0.symm)]
        exact hlook
      · rw [msgLoop_cons_unmatched _ _ _ _ _ (by simpa using h0)]
        exact ih _ he (List.nodup_cons.mp hnd).2 hmatch hlook r hr

theorem message_index_eq (d : ReminderIndex) (tellee today : Str) :
    (message d tellee today).index =
      (msgLoop tellee today ((List.insertionSort strLeP (d.map Prod.fst)).reverse)
        ⟨d, [], []⟩).index := rfl

theorem message_collected_eq (d : ReminderIndex) (tellee today : Str) :
    (message d tellee today).collected =
      (msgLoop tellee today ((List.insertionSort strLeP (d.map Prod.fst)).reverse)
        ⟨d, [], []⟩).collected := rfl

/-- C10 counterexample: the key `*:` has an empty stripped prefix, yet it does
not match the speaker `bob` — it ends in `:`, so the matcher takes the exact
branch and compares the whole key; a `message` invocation by `bob` leaves the
index untouched. -/
theorem starColon_not_universal_counterexample :
    pyRStripSet (chars "*:") (pyLower (chars "*:")) = [] ∧
    matchesKey (chars "*:") (chars "bob") = false ∧
    (message [(chars "*:", [⟨chars "al", chars "tell", chars "ts", chars "hi"⟩])]
        (chars "bob") (chars "01 Jan")).index =
      [(chars "*:", [⟨chars "al", chars "tell", chars "ts", chars "hi"⟩])] := by
  decide

/-- C10 amended: a stored key that ends in `*` and whose prefix is empty after
stripping trailing `*`/`:` characters (for example `*`) matches every speaker
nickname; on the next observed chat line the key is removed from the index and
every reminder stored under it is formatted and collected for delivery. -/
theorem empty_wildcard_matches_everyone (k tellee today : Str) (d : ReminderIndex)
    (rs : List Reminder)
    (h1 : pyEndsWith k '*' = true)
    (h2 : pyRStripSet (chars "*:") (pyLower k) = [])
    (h3 : lookupKey d k = some rs)
    (h4 : (d.map Prod.fst).Nodup) :
    matchesKey k tellee = true ∧
    lookupKey (message d tellee today).index k = none ∧
    ∀ r ∈ rs, formatLine tellee today r ∈ (message d tellee today).collected := by
  have hmatch : matchesKey k tellee = true := by
    have hc : pyEndsWith k ':' = false := by
      simp only [pyEndsWith, decide_eq_true_eq] at h1 ⊢
      simp [h1]
    simp [matchesKey, h1, hc, h2, List.isPrefixOf]
  have hmem : k ∈ (List.insertionSort strLeP (d.map Prod.fst)).reverse := by
    rw [List.mem_reverse]
    exact ((List.perm_insertionSort strLeP _).mem_iff).mpr (lookupKey_mem_keys d k rs h3)
  have hnd : (List.insertionSort strLeP (d.map Prod.fst)).reverse.Nodup := by
    rw [List.nodup_reverse]
    exact ((List.perm_insertionSort strLeP _).nodup_iff).mpr h4
  refine ⟨hmatch, ?_, ?_⟩
  · rw [message_index_eq, msgLoop_index]
    refine lookupKey_filter_none_of d k _ ?_
    intro p hp
    have : ((List.insertionSort strLeP (d.map Prod.fst)).reverse.any
        (fun k' => matchesKey k' tellee && decide (p.1 = k'))) = true :=
      List.any_eq_true.mpr ⟨k, hmem, by simp [hmatch, hp]⟩
    simp [this]
  · rw [message_collected_eq]
    exact msgLoop_collects tellee today k rs _ ⟨d, [], []⟩ hmem hnd hmatch h3

/-- Witness for C10 (amended): the key `*` with one stored reminder matches
the speaker `zoe` and is removed by her next message. -/
theorem empty_wildcard_matches_everyone_witness :
    matchesKey (chars "*") (chars "zoe") = true ∧
    lookupKey (message [(chars "*", [⟨chars "al", chars "tell", chars "ts", chars "hi"⟩])]
      (chars "zoe") (chars "01 Jan")).index (chars "*") = none :=
  ⟨(empty_wildcard_matches_everyone (chars "*") (chars "zoe") (chars "01 Jan")
      [(chars "*", [⟨chars "al", chars "tell", chars "ts", chars "hi"⟩])]
      [⟨chars "al", chars "tell", chars "ts", chars "hi"⟩]
      (by decide) (by decide) (by decide) (by decide)).1,
   (empty_wildcard_matches_everyone (chars "*") (chars "zoe") (chars "01 Jan")
      [(chars "*", [⟨chars "al", chars "tell", chars "ts", chars "hi"⟩])]
      [⟨chars "al", chars "tell", chars "ts", chars "hi"⟩]
      (by decide) (by decide) (by decide) (by decide)).2.1⟩

/-! ### Lemmas about `pyStrip` -/

theorem head?_dropWhile_not (p : Char → Bool) (l : Str) :
    ∀ c, (l.dropWhile p).head? = some c → p c = false := by
  induction l with
  | nil => intro c h; simp at h
  | cons x xs ih =>
    intro c h
    by_cases hp : p x = true
    · rw [List.dropWhile_cons, if_pos hp] at h
      exact ih c h
    · rw [List.dropWhile_cons, if_neg hp] at h
      simp only [List.head?_cons, Option.some.injEq] at h
      subst h
      simpa using hp

theorem pyStrip_sublist (s : Str) : (pyStrip s).Sublist s := by
  have h1 : (pyLStrip s).Sublist s := List.dropWhile_sublist pyIsSpace
  have h2 : (pyRStrip (pyLStrip s)).Sublist (pyLStrip s) := by
    have := (List.dropWhile_sublist (l := (pyLStrip s).reverse) pyIsSpace).reverse
    simpa [pyRStrip] using this
  exact h2.trans h1

theorem pyStrip_head (s : Str) :
    ∀ c, (pyStrip s).head? = some c → pyIsSpace c = false := by
  intro c h
  have hpre : (pyRStrip (pyLStrip s)).IsPrefix (pyLStrip s) := by
    rw [← List.reverse_suffix]
    simpa [pyRStrip] using List.dropWhile_suffix (l := (pyLStrip s).reverse) pyIsSpace
  obtain ⟨t, ht⟩ := hpre
  have hne : pyRStrip (pyLStrip s) ≠ [] := by
    intro hnil
    rw [show pyStrip s = pyRStrip (pyLStrip s) from rfl, hnil] at h
    simp at h
  have : (pyLStrip s).head? = some c := by
    rw [← ht, List.head?_append]
    rw [show pyStrip s = pyRStrip (pyLStrip s) from rfl] at h
    rw [h]
    rfl
  exact head?_dropWhile_not pyIsSpace s c this

theorem pyStrip_getLast (s : Str) :
    ∀ c, (pyStrip s).getLast? = some c → pyIsSpace c = false := by
  intro c h
  have : ((pyLStrip s).reverse.dropWhile pyIsSpace).head? = some c := by
    have := List.getLast?_reverse ((pyLStrip s).reverse.dropWhile pyIsSpace)
    rw [show pyStrip s = ((pyLStrip s).reverse.dropWhile pyIsSpace).reverse from rfl] at h
    rw [h] at this
    exact this.symm
  exact head?_dropWhile_not pyIsSpace (pyLStrip s).reverse c this

theorem pyStrip_eq_self (s : Str) (hne : s ≠ [])
    (hh : ∀ c, s.head? = some c → pyIsSpace c = false)
    (hl : ∀ c, s.getLast? = some c → pyIsSpace c = false) :
    pyStrip s = s := by
  have h1 : pyLStrip s = s := by
    cases s with
    | nil => rfl
    | cons x xs =>
      have := hh x (by simp)
      simp [pyLStrip, List.dropWhile_cons, this]
  have h2 : pyRStrip s = s := by
    have hrev : s.reverse ≠ [] := by simpa using hne
    obtain ⟨y, hy⟩ := Option.isSome_iff_exists.mp (List.getLast?_isSome.mpr hne)
    have hhead : s.reverse.head? = some y := by
      rw [List.head?_reverse]; exact hy
    have hys : pyIsSpace y = false := hl y hy
    cases hr : s.reverse with
    | nil => exact absurd hr hrev
    | cons z zs =>
      have hz : z = y := by
        rw [hr] at hhead
        simpa using hhead
      subst hz
      have : s.reverse.dropWhile pyIsSpace = s.reverse := by
        rw [hr, List.dropWhile_cons, if_neg (by simp [hys])]
      simp [pyRStrip, this]
  rw [pyStrip, h1, h2]

/-! ### Lemmas about `pySplit` -/

theorem pySplit_ne_nil (c : Char) (s : Str) : pySplit c s ≠ [] := by
  cases s with
  | nil => simp [pySplit]
  | cons x xs => by_cases h : x = c <;> simp [pySplit, h]

theorem mem_pySplit (c : Char) (s : Str) :
    ∀ l ∈ pySplit c s, c ∉ l := by
  induction s with
  | nil => intro l hl; simp [pySplit] at hl; simp [hl]
  | cons x xs ih =>
    intro l hl
    by_cases h : x = c
    · rw [pySplit, if_pos h] at hl
      rcases List.mem_cons.mp hl with rfl | hl
      · simp
      · exact ih l hl
    · rw [pySplit, if_neg h] at hl
      cases hr : pySplit c xs with
      | nil => exact absurd hr (pySplit_ne_nil c xs)
      | cons h0 t0 =>
        rw [hr] at hl
        rcases List.mem_cons.mp hl with rfl | hl
        · intro hc
          rcases List.mem_cons.mp hc with rfl | hc
          · exact h rfl
          · exact ih h0 (by rw [hr]; exact List.mem_cons_self _ _) hc
        · exact ih l (by rw [hr]; exact List.mem_cons_of_mem _ hl)

theorem pySplit_append (c : Char) (l rest : Str) (hl : c ∉ l) :
    pySplit c (l ++ c :: rest) = l :: pySplit c rest := by
  induction l with
  | nil => simp [pySplit]
  | cons x xs ih =>
    have hx : x ≠ c := fun he => hl (he ▸ List.mem_cons_self x xs)
    have hxs : c ∉ xs := fun hm => hl (List.mem_cons_of_mem x hm)
    rw [List.cons_append, pySplit, if_neg hx, ih hxs]
    simp

theorem pySplit_flatten (c : Char) (L : List Str) (h : ∀ l ∈ L, c ∉ l) :
    pySplit c ((L.map (fun l => l ++ [c])).flatten) = L ++ [[]] := by
  induction L with
  | nil => simp [pySplit]
  | cons y ys ih =>
    have hy : c ∉ y := h y (List.mem_cons_self y ys)
    have hrest : ∀ l ∈ ys, c ∉ l := fun l hl => h l (List.mem_cons_of_mem y hl)
    have : ((y :: ys).map (fun l => l ++ [c])).flatten =
        y ++ c :: (ys.map (fun l => l ++ [c])).flatten := by simp
    rw [this, pySplit_append c y _ hy, ih hrest]
    rfl

/-! ### Lemmas about `pySplitMax` -/

theorem pySplitMax_zero (c : Char) (s : Str) : pySplitMax c 0 s = [s] := by
  cases s <;> rfl

theorem pySplitMax_ne_nil (c : Char) (n : Nat) (s : Str) : pySplitMax c n s ≠ [] := by
  cases s with
  | nil => simp [pySplitMax]
  | cons x xs =>
    cases n with
    | zero => simp [pySplitMax]
    | succ m => by_cases h : x = c <;> simp [pySplitMax, h]

theorem pySplitMax_append (c : Char) (a : Str) (n : Nat) (rest : Str) (ha : c ∉ a) :
    pySplitMax c (n + 1) (a ++ c :: rest) = a :: pySplitMax c n rest := by
  induction a with
  | nil => simp [pySplitMax]
  | cons x xs ih =>
    have hx : x ≠ c := fun he => ha (he ▸ List.mem_cons_self x xs)
    have hxs : c ∉ xs := fun hm => ha (List.mem_cons_of_mem x hm)
    rw [List.cons_append, pySplitMax, if_neg hx, ih hxs]
    simp

theorem joinSep_pySplitMax (c : Char) (n : Nat) (s : Str) :
    joinSep c (pySplitMax c n s) = s := by
  induction s generalizing n with
  | nil => simp [pySplitMax, joinSep]
  | cons x xs ih =>
    cases n with
    | zero => simp [pySplitMax, joinSep]
    | succ m =>
      by_cases hx : x = c
      · rw [pySplitMax, if_pos hx]
        cases hr : pySplitMax c m xs with
        | nil => exact absurd hr (pySplitMax_ne_nil c m xs)
        | cons h0 t0 =>
          have hxs := ih m
          rw [hr] at hxs
          calc joinSep c ([] :: h0 :: t0) = c :: joinSep c (h0 :: t0) := rfl
            _ = c :: xs := by rw [hxs]
            _ = x :: xs := by rw [hx]
      · rw [pySplitMax, if_neg hx]
        cases hr : pySplitMax c (m + 1) xs with
        | nil => exact absurd hr (pySplitMax_ne_nil c (m + 1) xs)
        | cons h0 t0 =>
          have hxs := ih (m + 1)
          rw [hr] at hxs
          cases t0 with
          | nil =>
            simp only [joinSep] at hxs ⊢
            simp [hxs]
          | cons h1 t1 =>
            simp only [joinSep] at hxs ⊢
            simp [← hxs]

theorem mem_dropLast_pySplitMax (c : Char) (n : Nat) (s : Str) :
    ∀ l ∈ (pySplitMax c n s).dropLast, c ∉ l := by
  induction s generalizing n with
  | nil => intro l hl; simp [pySplitMax] at hl
  | cons x xs ih =>
    intro l hl
    cases n with
    | zero => simp [pySplitMax] at hl
    | succ m =>
      by_cases hx : x = c
      · rw [pySplitMax, if_pos hx] at hl
        have hne : pySplitMax c m xs ≠ [] := pySplitMax_ne_nil c m xs
        rw [List.dropLast_cons_of_ne_nil hne] at hl
        rcases List.mem_cons.mp hl with rfl | hl
        · simp
        · exact ih m l hl
      · rw [pySplitMax, if_neg hx] at hl
        cases hr : pySplitMax c (m + 1) xs with
        | nil => exact absurd hr (pySplitMax_ne_nil c (m + 1) xs)
        | cons h0 t0 =>
          rw [hr] at hl
          simp only [List.headD_cons, List.tail_cons] at hl
          cases t0 with
          | nil => simp at hl
          | cons h1 t1 =>
            rw [List.dropLast_cons_of_ne_nil (by simp)] at hl
            rcases List.mem_cons.mp hl with rfl | hl
            · intro hc
              rcases List.mem_cons.mp hc with rfl | hc
              · exact hx rfl
              · refine ih (m + 1) h0 ?_ hc
                rw [hr, List.dropLast_cons_of_ne_nil (by simp)]
                exact List.mem_cons_self _ _
            · refine ih (m + 1) l ?_
              rw [hr, List.dropLast_cons_of_ne_nil (by simp)]
              exact List.mem_cons_of_mem _ hl

/-! ### Invariants of loaded indexes and the save/load round trip -/

theorem getLast?_append_cons (l : Str) (x : Char) (t : Str) :
    (l ++ x :: t).getLast? = (x :: t).getLast? := by
  rw [List.getLast?_append]
  obtain ⟨y, hy⟩ := Option.isSome_iff_exists.mp
    (List.getLast?_isSome.mpr (List.cons_ne_nil x t))
  rw [hy]
  rfl

/-- The serialized line written for a well-shaped key and reminder, as one
flat concatenation. -/
theorem dumpLine_flat (k : Str) (r : Reminder) :
    dumpLine k r =
      (k ++ '\t' :: (r.teller ++ '\t' :: (r.verb ++ '\t' :: r.timenow))) ++
        '\t' :: r.msg := by
  simp [dumpLine]

theorem dumpLine_ne_nil (k : Str) (r : Reminder) (hk : k ≠ []) :
    dumpLine k r ≠ [] := by
  cases k with
  | nil => exact absurd rfl hk
  | cons a as => simp [dumpLine]

theorem dumpLine_head? (k : Str) (r : Reminder) (hk : k ≠ []) :
    (dumpLine k r).head? = k.head? := by
  cases k with
  | nil => exact absurd rfl hk
  | cons a as => simp [dumpLine]

theorem dumpLine_getLast? (k : Str) (r : Reminder) (hm : r.msg ≠ []) :
    (dumpLine k r).getLast? = r.msg.getLast? := by
  rw [dumpLine_flat, getLast?_append_cons]
  cases hmsg : r.msg with
  | nil => exact absurd hmsg hm
  | cons y ys =>
    rw [show ('\t' :: y :: ys) = [ '\t' ] ++ y :: ys from rfl, getLast?_append_cons]

theorem dumpLine_no_newline (k : Str) (r : Reminder) (hk : GoodKey k)
    (hr : GoodRem r) : '\n' ∉ dumpLine k r := by
  obtain ⟨-, -, -, hk4⟩ := hk
  obtain ⟨-, h2, -, h4, -, h6, h7, -, -⟩ := hr
  intro hmem
  simp only [dumpLine, List.mem_append, List.mem_cons] at hmem
  rcases hmem with h | h | h | h | h | h | h | h | h <;>
    first
      | exact hk4 h
      | exact h2 h
      | exact h4 h
      | exact h6 h
      | exact h7 h
      | simp at h

theorem pyStrip_dumpLine (k : Str) (r : Reminder) (hk : GoodKey k)
    (hr : GoodRem r) : pyStrip (dumpLine k r) = dumpLine k r := by
  obtain ⟨hk1, hk2, -, -⟩ := hk
  obtain ⟨-, -, -, -, -, -, -, hm1, hm2⟩ := hr
  refine pyStrip_eq_self _ (dumpLine_ne_nil k r hk1) ?_ ?_
  · intro c hc
    rw [dumpLine_head? k r hk1] at hc
    exact hk2 c hc
  · intro c hc
    rw [dumpLine_getLast? k r hm1] at hc
    exact hm2 c hc

theorem pySplitMax_dumpLine (k : Str) (r : Reminder) (hk : '\t' ∉ k)
    (h1 : '\t' ∉ r.teller) (h2 : '\t' ∉ r.verb) (h3 : '\t' ∉ r.timenow) :
    pySplitMax '\t' 4 (dumpLine k r) = [k, r.teller, r.verb, r.timenow, r.msg] := by
  rw [dumpLine]
  rw [pySplitMax_append '\t' k 3 _ hk]
  rw [pySplitMax_append '\t' r.teller 2 _ h1]
  rw [pySplitMax_append '\t' r.verb 1 _ h2]
  rw [pySplitMax_append '\t' r.timenow 0 _ h3]
  rw [pySplitMax_zero]

theorem processLine_dumpLine (k : Str) (r : Reminder) (hk : GoodKey k)
    (hr : GoodRem r) (acc : ReminderIndex) :
    processLine acc (dumpLine k r) = appendReminder acc k r := by
  have hstrip := pyStrip_dumpLine k r hk hr
  have hne := dumpLine_ne_nil k r hk.1
  have hsplit := pySplitMax_dumpLine k r hk.2.2.1 hr.1 hr.2.2.1 hr.2.2.2.2.1
  rw [processLine]
  simp only [hstrip, hne, if_neg (by exact hne), hsplit]
  simp

theorem appendReminder_not_mem (acc : ReminderIndex) (k : Str) (r : Reminder)
    (h : k ∉ acc.map Prod.fst) : appendReminder acc k r = acc ++ [(k, [r])] := by
  induction acc with
  | nil => rfl
  | cons hd tl ih =>
    obtain ⟨k0, rs0⟩ := hd
    have hk0 : k0 ≠ k := by
      intro he
      exact h (by simp [he])
    rw [appendReminder, if_neg hk0, ih (fun hm => h (by simp [hm]))]
    rfl

theorem appendReminder_last (acc : ReminderIndex) (k : Str) (cur : List Reminder)
    (r : Reminder) (h : k ∉ acc.map Prod.fst) :
    appendReminder (acc ++ [(k, cur)]) k r = acc ++ [(k, cur ++ [r])] := by
  induction acc with
  | nil => simp [appendReminder]
  | cons hd tl ih =>
    obtain ⟨k0, rs0⟩ := hd
    have hk0 : k0 ≠ k := by
      intro he
      exact h (by simp [he])
    rw [List.cons_append, appendReminder, if_neg hk0, ih (fun hm => h (by simp [hm]))]
    rfl

theorem foldl_appendReminder_group (acc : ReminderIndex) (k : Str)
    (h : k ∉ acc.map Prod.fst) :
    ∀ (rest : List Reminder) (cur : List Reminder),
      List.foldl (fun a r => appendReminder a k r) (acc ++ [(k, cur)]) rest =
        acc ++ [(k, cur ++ rest)] := by
  intro rest
  induction rest with
  | nil => intro cur; simp
  | cons r rt ih =>
    intro cur
    rw [List.foldl_cons, appendReminder_last acc k cur r h, ih (cur ++ [r])]
    simp

theorem appendReminder_keys (acc : ReminderIndex) (k : Str) (r : Reminder) :
    (appendReminder acc k r).map Prod.fst =
      if k ∈ acc.map Prod.fst then acc.map Prod.fst
      else acc.map Prod.fst ++ [k] := by
  induction acc with
  | nil => simp [appendReminder]
  | cons hd tl ih =>
    obtain ⟨k0, rs0⟩ := hd
    by_cases hk0 : k0 = k
    · subst hk0
      simp [appendReminder]
    · rw [appendReminder, if_neg hk0]
      by_cases hm : k ∈ tl.map Prod.fst
      · simp only [List.map_cons, ih, if_pos hm]
        rw [if_pos (List.mem_cons_of_mem k0 hm)]
      · have hne : k ∉ k0 :: tl.map Prod.fst := by
          simp only [List.mem_cons]
          push_neg
          exact ⟨fun he => hk0 he.symm, hm⟩
        simp only [List.map_cons, ih, if_neg hm]
        rw [if_neg hne, List.cons_append]

theorem appendReminder_good (k : Str) (r : Reminder) (hk : GoodKey k) (hr : GoodRem r) :
    ∀ (acc : ReminderIndex),
      (∀ p ∈ acc, GoodKey p.1 ∧ p.2 ≠ [] ∧ ∀ r' ∈ p.2, GoodRem r') →
      ∀ p ∈ appendReminder acc k r, GoodKey p.1 ∧ p.2 ≠ [] ∧ ∀ r' ∈ p.2, GoodRem r' := by
  intro acc
  induction acc with
  | nil =>
    intro _ p hp
    simp only [appendReminder, List.mem_singleton] at hp
    subst hp
    exact ⟨hk, by simp, by simpa using hr⟩
  | cons hd tl ih =>
    intro hgood p hp
    obtain ⟨k0, rs0⟩ := hd
    by_cases hk0 : k0 = k
    · rw [appendReminder, if_pos hk0] at hp
      rcases List.mem_cons.mp hp with rfl | hp
      · obtain ⟨g1, g2, g3⟩ := hgood (k0, rs0) (List.mem_cons_self _ _)
        refine ⟨g1, by simp, ?_⟩
        intro r' hr'
        rcases List.mem_append.mp hr' with h | h
        · exact g3 r' h
        · rw [List.mem_singleton.mp h]; exact hr
      · exact hgood p (List.mem_cons_of_mem _ hp)
    · rw [appendReminder, if_neg hk0] at hp
      rcases List.mem_cons.mp hp with rfl | hp
      · exact hgood (k0, rs0) (List.mem_cons_self _ _)
      · exact ih (fun q hq => hgood q (List.mem_cons_of_mem _ hq)) p hp

theorem appendReminder_inv (acc : ReminderIndex) (k : Str) (r : Reminder)
    (hInv : Inv acc) (hk : GoodKey k) (hr : GoodRem r) :
    Inv (appendReminder acc k r) := by
  obtain ⟨hnd, hgood⟩ := hInv
  constructor
  · rw [appendReminder_keys]
    by_cases hm : k ∈ acc.map Prod.fst
    · simpa [hm] using hnd
    · rw [if_neg hm, List.nodup_append]
      refine ⟨hnd, List.nodup_singleton k, ?_⟩
      intro a ha hb
      rw [List.mem_singleton] at hb
      subst hb
      exact hm ha
  · exact appendReminder_good k r hk hr acc hgood

theorem foldl_processLine_map (k : Str) (hk : GoodKey k) :
    ∀ (rs : List Reminder) (acc : ReminderIndex), (∀ r ∈ rs, GoodRem r) →
      List.foldl processLine acc (rs.map (dumpLine k)) =
        List.foldl (fun a r => appendReminder a k r) acc rs := by
  intro rs
  induction rs with
  | nil => intro acc _; rfl
  | cons r rt ih =>
    intro acc hgood
    rw [List.map_cons, List.foldl_cons, List.foldl_cons,
      processLine_dumpLine k r hk (hgood r (List.mem_cons_self _ _))]
    exact ih _ (fun r' h => hgood r' (List.mem_cons_of_mem _ h))

/-- Reloading the dumped lines of a well-shaped index appends the index intact
after any accumulator whose keys are disjoint from the index's keys. -/
theorem foldl_processLine_flatten :
    ∀ (d : ReminderIndex) (acc : ReminderIndex),
      (∀ p ∈ d, GoodKey p.1 ∧ p.2 ≠ [] ∧ ∀ r ∈ p.2, GoodRem r) →
      (d.map Prod.fst).Nodup →
      (∀ k ∈ d.map Prod.fst, k ∉ acc.map Prod.fst) →
      List.foldl processLine acc ((d.map (fun p => p.2.map (dumpLine p.1))).flatten) =
        acc ++ d := by
  intro d
  induction d with
  | nil => intro acc _ _ _; simp
  | cons hd tl ih =>
    intro acc hgood hnd hdisj
    obtain ⟨k, rs⟩ := hd
    obtain ⟨gk, gne, grs⟩ := hgood (k, rs) (List.mem_cons_self _ _)
    have hkacc : k ∉ acc.map Prod.fst := hdisj k (by simp)
    rw [List.map_cons, List.flatten_cons, List.foldl_append,
      foldl_processLine_map k gk rs acc grs]
    cases rs with
    | nil => exact absurd rfl gne
    | cons r0 rt =>
      rw [List.foldl_cons, appendReminder_not_mem acc k r0 hkacc,
        foldl_appendReminder_group acc k hkacc rt [r0]]
      have hstep : acc ++ [(k, r0 :: rt)] = acc ++ [(k, [r0] ++ rt)] := by simp
      rw [← hstep] at *
      rw [ih (acc ++ [(k, r0 :: rt)])
        (fun p hp => hgood p (List.mem_cons_of_mem _ hp))
        (List.nodup_cons.mp (by simpa using hnd)).2
        ?_]
      · simp
      · intro k' hk'
        have hk'acc : k' ∉ acc.map Prod.fst := hdisj k' (by simp [hk'])
        have hk'k : k' ≠ k := by
          intro he
          subst he
          exact (List.nodup_cons.mp (by simpa using hnd)).1 hk'
        simp only [List.map_append, List.map_cons, List.map_nil, List.mem_append,
          List.mem_singleton]
        push_neg
        exact ⟨hk'acc, hk'k⟩

/-- The five fields split out of a stripped, newline-free, non-empty line are
well shaped. -/
theorem split_fields_good (line : Str) (t1 t2 t3 t4 t5 : Str)
    (hh : ∀ c, line.head? = some c → pyIsSpace c = false)
    (hlast : ∀ c, line.getLast? = some c → pyIsSpace c = false)
    (hnl : '\n' ∉ line)
    (hl : pySplitMax '\t' 4 line = [t1, t2, t3, t4, t5]) :
    GoodKey t1 ∧ GoodRem ⟨t2, t3, t4, t5⟩ := by
  have hjoin : line = t1 ++ '\t' :: (t2 ++ '\t' :: (t3 ++ '\t' :: (t4 ++ '\t' :: t5))) := by
    have h0 := (joinSep_pySplitMax '\t' 4 line).symm
    rw [hl] at h0
    exact h0
  have htab1 : '\t' ∉ t1 := mem_dropLast_pySplitMax '\t' 4 line t1 (by rw [hl]; simp)
  have htab2 : '\t' ∉ t2 := mem_dropLast_pySplitMax '\t' 4 line t2 (by rw [hl]; simp)
  have htab3 : '\t' ∉ t3 := mem_dropLast_pySplitMax '\t' 4 line t3 (by rw [hl]; simp)
  have htab4 : '\t' ∉ t4 := mem_dropLast_pySplitMax '\t' 4 line t4 (by rw [hl]; simp)
  have hnl1 : '\n' ∉ t1 := fun hm => hnl (by rw [hjoin]; simp [hm])
  have hnl2 : '\n' ∉ t2 := fun hm => hnl (by rw [hjoin]; simp [hm])
  have hnl3 : '\n' ∉ t3 := fun hm => hnl (by rw [hjoin]; simp [hm])
  have hnl4 : '\n' ∉ t4 := fun hm => hnl (by rw [hjoin]; simp [hm])
  have hnl5 : '\n' ∉ t5 := fun hm => hnl (by rw [hjoin]; simp [hm])
  have hflat : line = (t1 ++ '\t' :: (t2 ++ '\t' :: (t3 ++ '\t' :: t4))) ++ '\t' :: t5 := by
    rw [hjoin]; simp
  have hk1 : t1 ≠ [] ∧ ∀ c, t1.head? = some c → pyIsSpace c = false := by
    cases t1 with
    | nil =>
      have hh' := hh '\t' (by rw [hjoin]; rfl)
      simp [pyIsSpace] at hh'
    | cons a as =>
      refine ⟨by simp, ?_⟩
      intro c hc
      simp only [List.head?_cons, Option.some.injEq] at hc
      refine hh c ?_
      rw [hjoin]
      simp [hc]
  have hk5 : t5 ≠ [] ∧ ∀ c, t5.getLast? = some c → pyIsSpace c = false := by
    cases t5 with
    | nil =>
      have hlast' := hlast '\t' (by rw [hflat, getLast?_append_cons]; rfl)
      simp [pyIsSpace] at hlast'
    | cons y ys =>
      refine ⟨by simp, ?_⟩
      intro c hc
      refine hlast c ?_
      rw [hflat, getLast?_append_cons,
        show ('\t' :: y :: ys) = ['\t'] ++ y :: ys from rfl, getLast?_append_cons]
      exact hc
  exact ⟨⟨hk1.1, hk1.2, htab1, hnl1⟩,
    htab2, hnl2, htab3, hnl3, htab4, hnl4, hnl5, hk5.1, hk5.2⟩

theorem processLine_inv (acc : ReminderIndex) (rawLine : Str) (hInv : Inv acc)
    (hnl : '\n' ∉ rawLine) : Inv (processLine acc rawLine) := by
  by_cases hempty : pyStrip rawLine = []
  · simpa [processLine, hempty] using hInv
  · have hlnl : '\n' ∉ pyStrip rawLine :=
      fun hm => hnl (List.Sublist.mem hm (pyStrip_sublist rawLine))
    rcases hl : pySplitMax '\t' 4 (pyStrip rawLine) with
      _ | ⟨t1, _ | ⟨t2, _ | ⟨t3, _ | ⟨t4, _ | ⟨t5, _ | ⟨t6, ts⟩⟩⟩⟩⟩⟩ <;>
      simp only [processLine, if_neg hempty, hl] <;>
      try exact hInv
    obtain ⟨hgk, hgr⟩ := split_fields_good (pyStrip rawLine) t1 t2 t3 t4 t5
      (pyStrip_head rawLine) (pyStrip_getLast rawLine) hlnl hl
    exact appendReminder_inv acc t1 _ hInv hgk hgr

theorem Inv_nil : Inv [] := ⟨List.nodup_nil, by simp⟩

theorem foldl_processLine_inv (ls : List Str) :
    ∀ acc, Inv acc → (∀ l ∈ ls, '\n' ∉ l) →
      Inv (List.foldl processLine acc ls) := by
  induction ls with
  | nil => intro acc h _; exact h
  | cons l lt ih =>
    intro acc h hnl
    rw [List.foldl_cons]
    exact ih _ (processLine_inv acc l h (hnl l (List.mem_cons_self _ _)))
      (fun l' hl' => hnl l' (List.mem_cons_of_mem _ hl'))

/-- Every index produced by `load_reminders` satisfies the invariant. -/
theorem load_inv (content : Str) : Inv (load_reminders content) := by
  rw [load_reminders]
  exact foldl_processLine_inv _ [] Inv_nil (fun l hl => mem_pySplit '\n' content l hl)

/-- Loading the dump of a well-shaped index restores the index exactly. -/
theorem load_dump (d : ReminderIndex) (h : Inv d) :
    load_reminders (dump_reminders d) = d := by
  obtain ⟨hnd, hgood⟩ := h
  have hlines : ∀ l ∈ (d.map (fun p => p.2.map (dumpLine p.1))).flatten, '\n' ∉ l := by
    intro l hl
    rw [List.mem_flatten] at hl
    obtain ⟨L, hL, hlL⟩ := hl
    rw [List.mem_map] at hL
    obtain ⟨p, hp, rfl⟩ := hL
    rw [List.mem_map] at hlL
    obtain ⟨r, hr, rfl⟩ := hlL
    obtain ⟨g1, -, g3⟩ := hgood p hp
    exact dumpLine_no_newline p.1 r g1 (g3 r hr)
  rw [load_reminders, dump_reminders, pySplit_flatten '\n' _ hlines, List.foldl_append]
  rw [foldl_processLine_flatten d [] hgood hnd (by simp)]
  simp [processLine, pyStrip, pyLStrip, pyRStrip]

/-- C2: for every input file content, saving the index obtained by loading it
and reloading the saved content yields a structurally equal index: the same
keys in the same order, each mapped to the same ordered reminder list. -/
theorem save_load_roundtrip (content : Str) :
    load_reminders (dump_reminders (load_reminders content)) = load_reminders content :=
  load_dump (load_reminders content) (load_inv content)

example : pySplitMax '\t' 4 (chars "a\tb\tc\td\te f\tg") =
    [chars "a", chars "b", chars "c", chars "d", chars "e f\tg"] := by decide

example : pySplitMax '\t' 4 (chars "a\tb\tc") = [chars "a", chars "b", chars "c"] := by
  decide

example : pySplit '\n' (chars "x\ny\n") = [chars "x", chars "y", []] := by decide

example : load_reminders (chars "bob\tal\ttell\t01 Jan\thi there\nbad line\n") =
    [(chars "bob", [⟨chars "al", chars "tell", chars "01 Jan", chars "hi there"⟩])] := by
  decide

example :
    dump_reminders [(chars "bob", [⟨chars "al", chars "tell", chars "01 Jan", chars "hi"⟩])] =
      chars "bob\tal\ttell\t01 Jan\thi\n" := by decide

end Tell
